import Mathlib

/-!
# Verification of the PDF-Utilities range/merge/split/conversion core

Shallow embedding of the planning core of the PDF-Utilities repository:

* `PDFSplitter.validateAndParseRanges` (src/components/WordToPDFConverter.js)
* `FileListManager.parsePageRanges` and `FileListManager.pagesToRangeText`
  (src/components/FileListManager.js)
* `SplitTool.getDividerRanges` (src/components/SplitTool.js)
* `PDFProcessor.mergePDFs` (src/components/FileListManager.js)
* `WordConvertTool.handleConvertRequest` (src/components/WordConvertTool.js)
* `WordToPDFConverter.wrapText` / `addTextToPDF`
  (src/components/WordToPDFConverter.js)

Strings are modelled at the character-list level so that every definition is
executable by the kernel.  JavaScript string primitives (`split`, `trim`,
`parseInt`, `substring`, `includes`) are embedded as functions on `List Char`
with their JavaScript semantics.
-/

namespace PDFUtil

/-- ASCII whitespace recognised by JavaScript `String.prototype.trim` and by
`parseInt`'s leading-whitespace skip (space, tab, LF, CR, VT, FF). -/
def isJsWs (c : Char) : Bool :=
  c = ' ' || c = '\t' || c = '\n' || c = '\r' || c = '\x0b' || c = '\x0c'

/-- JavaScript `s.trim()` on a character list. -/
def jsTrim (cs : List Char) : List Char :=
  ((cs.dropWhile isJsWs).reverse.dropWhile isJsWs).reverse

/-- Accumulator worker for `splitOnChar`. -/
def splitOnCharAux (sep : Char) : List Char → List Char → List (List Char)
  | [], acc => [acc.reverse]
  | c :: cs, acc =>
      if c = sep then acc.reverse :: splitOnCharAux sep cs []
      else splitOnCharAux sep cs (c :: acc)

/-- JavaScript `s.split(sep)` for a one-character separator: the empty string
splits to `[""]`, and consecutive separators produce empty fields. -/
def splitOnChar (sep : Char) (cs : List Char) : List (List Char) :=
  splitOnCharAux sep cs []

/-- Numeric value of a decimal digit list (most significant first). -/
def decVal (ds : List Char) : Nat :=
  ds.foldl (fun a c => a * 10 + (c.toNat - '0'.toNat)) 0

/-- Value of one hexadecimal digit, `none` for a non-hex-digit. -/
def hexDigitVal (c : Char) : Option Nat :=
  if '0' ≤ c ∧ c ≤ '9' then some (c.toNat - '0'.toNat)
  else if 'a' ≤ c ∧ c ≤ 'f' then some (c.toNat - 'a'.toNat + 10)
  else if 'A' ≤ c ∧ c ≤ 'F' then some (c.toNat - 'A'.toNat + 10)
  else none

/-- Numeric value of a hexadecimal digit list (most significant first). -/
def hexVal (ds : List Char) : Nat :=
  ds.foldl (fun a c => a * 16 + ((hexDigitVal c).getD 0)) 0

/-- JavaScript `parseInt(s)` with no radix argument: skip leading whitespace,
read an optional sign, auto-detect a `0x`/`0X` prefix (hexadecimal), then take
the longest digit prefix; the result is `none` (JS `NaN`) when no digit is
found. -/
def parseIntJS (cs0 : List Char) : Option Int :=
  let cs1 := cs0.dropWhile isJsWs
  let sgn : Int := match cs1 with
    | '-' :: _ => -1
    | _ => 1
  let cs2 : List Char := match cs1 with
    | '-' :: r => r
    | '+' :: r => r
    | _ => cs1
  match cs2 with
  | '0' :: 'x' :: r =>
      let ds := r.takeWhile fun c => (hexDigitVal c).isSome
      if ds = [] then none else some (sgn * (hexVal ds : Nat))
  | '0' :: 'X' :: r =>
      let ds := r.takeWhile fun c => (hexDigitVal c).isSome
      if ds = [] then none else some (sgn * (hexVal ds : Nat))
  | _ =>
      let ds := cs2.takeWhile Char.isDigit
      if ds = [] then none else some (sgn * (decVal ds : Nat))

/-- An inclusive 1-based page interval, as produced by the split-range parser
(`{ start, end }` objects in the source; the source's `end` field is named
`stop` here because `end` is a Lean keyword). -/
structure PageRange where
  start : Nat
  stop : Nat
  deriving DecidableEq, Repr

/-- The tokens of a range string: split on commas, each token trimmed
(`rangesString.split(',').map(part => part.trim())`). -/
def tokensOf (cs : List Char) : List (List Char) :=
  (splitOnChar ',' cs).map jsTrim

/-- The non-empty tokens of a range string (the parsers skip empty tokens). -/
def nonEmptyTokens (cs : List Char) : List (List Char) :=
  (tokensOf cs).filter (· ≠ [])

/-- One trimmed, non-empty token of `PDFSplitter.validateAndParseRanges`:
a token containing `-` is a two-sided range (both sides trimmed and
`parseInt`ed, checked against the document bounds and for inversion), any
other token is a single page. -/
def parseRangeToken (part : List Char) (totalPages : Nat) : Except String PageRange :=
  if part.contains '-' then
    match (((splitOnChar '-' part).map jsTrim).get? 0).bind parseIntJS,
          (((splitOnChar '-' part).map jsTrim).get? 1).bind parseIntJS with
    | some s, some e =>
        if s < 1 ∨ e < 1 ∨ s > (totalPages : Int) ∨ e > (totalPages : Int) then
          .error "Range is outside document bounds"
        else if s > e then
          .error "Invalid range: start page must be less than or equal to end page"
        else
          .ok ⟨s.toNat, e.toNat⟩
    | _, _ => .error "Invalid range"
  else
    match parseIntJS part with
    | none => .error "Invalid page number"
    | some p =>
        if p < 1 ∨ p > (totalPages : Int) then
          .error "Page is outside document bounds"
        else
          .ok ⟨p.toNat, p.toNat⟩

/-- The token loop of `validateAndParseRanges`: empty tokens are skipped, the
first invalid token aborts with its error. -/
def parseTokens (parts : List (List Char)) (totalPages : Nat) :
    Except String (List PageRange) :=
  match parts with
  | [] => .ok []
  | p :: ps =>
      if p = [] then parseTokens ps totalPages
      else
        match parseRangeToken p totalPages with
        | .error e => .error e
        | .ok r =>
            match parseTokens ps totalPages with
            | .error e => .error e
            | .ok rs => .ok (r :: rs)

/-- Comparison used by the final `ranges.sort((a, b) => a.start - b.start)`. -/
def leStart (a b : PageRange) : Prop := a.start ≤ b.start

instance : DecidableRel leStart := fun a b => Nat.decLe a.start b.start

instance : IsTotal PageRange leStart := ⟨fun a b => Nat.le_total a.start b.start⟩

instance : IsTrans PageRange leStart := ⟨fun _ _ _ h1 h2 => Nat.le_trans h1 h2⟩

/-- `PDFSplitter.validateAndParseRanges(rangesString, totalPages)`
(src/components/WordToPDFConverter.js): rejects empty/whitespace-only input,
parses each non-empty comma-separated token, rejects the input when no token
produced a range, and finally stable-sorts the ranges by `start` ascending
(JavaScript `Array.prototype.sort` is stable; modelled by insertion sort). -/
def validateAndParseRanges (rangesString : List Char) (totalPages : Nat) :
    Except String (List PageRange) :=
  if jsTrim rangesString = [] then .error "Please enter page ranges"
  else
    match parseTokens (tokensOf rangesString) totalPages with
    | .error e => .error e
    | .ok ranges =>
        if ranges = [] then .error "No valid page ranges found"
        else .ok (ranges.insertionSort leStart)

/-- The dedup-push of `FileListManager.parsePageRanges`:
`if (!pages.includes(i)) pages.push(i)`. -/
def addIfAbsent (pages : List Nat) (i : Nat) : List Nat :=
  if i ∈ pages then pages else pages ++ [i]

/-- One token step of `FileListManager.parsePageRanges`: a malformed,
out-of-bounds, or inverted token leaves the accumulator unchanged (silently
dropped); an accepted range pushes each of its pages, deduplicating. -/
def parsePagesStep (totalPages : Nat) (pages : List Nat) (part : List Char) :
    List Nat :=
  if part = [] then pages
  else if part.contains '-' then
    match (((splitOnChar '-' part).map jsTrim).get? 0).bind parseIntJS,
          (((splitOnChar '-' part).map jsTrim).get? 1).bind parseIntJS with
    | some s, some e =>
        if 1 ≤ s ∧ e ≤ (totalPages : Int) ∧ s ≤ e then
          (List.range' s.toNat (e.toNat + 1 - s.toNat)).foldl addIfAbsent pages
        else pages
    | _, _ => pages
  else
    match parseIntJS part with
    | some p =>
        if 1 ≤ p ∧ p ≤ (totalPages : Int) then addIfAbsent pages p.toNat
        else pages
    | none => pages

/-- `FileListManager.parsePageRanges(rangeText, totalPages)`
(src/components/FileListManager.js): total — every token that fails the
per-token checks is skipped, never reported; the accumulated page list is
finally sorted ascending (`pages.sort((a, b) => a - b)`). -/
def parsePageRanges (rangeText : List Char) (totalPages : Nat) : List Nat :=
  ((tokensOf rangeText).foldl (parsePagesStep totalPages) []).insertionSort (· ≤ ·)

/-- One compacted run rendered as text: `start.toString()` for a singleton,
`` `${start}-${end}` `` otherwise. -/
def encodeRun : Nat × Nat → String
  | (s, e) => if s = e then toString s else toString s ++ "-" ++ toString e

/-- JavaScript `ranges.join(', ')`. -/
def joinSep (sep : String) : List String → String
  | [] => ""
  | [s] => s
  | s :: rest => s ++ sep ++ joinSep sep rest

/-- The run-compaction loop of `FileListManager.pagesToRangeText`: walks the
sorted page list maintaining the current run `[s, e]`, extending it when the
next page is `e + 1` and emitting it otherwise. -/
def compactLoop : List Nat → Nat → Nat → List (Nat × Nat)
  | [], s, e => [(s, e)]
  | p :: rest, s, e =>
      if p = e + 1 then compactLoop rest s p
      else (s, e) :: compactLoop rest p p

/-- The runs `pagesToRangeText` derives from a page list (after its internal
ascending sort). -/
def compactRuns (pages : List Nat) : List (Nat × Nat) :=
  match pages.insertionSort (· ≤ ·) with
  | [] => []
  | p :: rest => compactLoop rest p p

/-- `FileListManager.pagesToRangeText(pages)`
(src/components/FileListManager.js): empty input gives `""`; otherwise the
input is sorted ascending and each maximal consecutive run is rendered as
`start-end` (or a lone number), joined by `", "`. -/
def pagesToRangeText (pages : List Nat) : String :=
  if pages = [] then ""
  else joinSep ", " ((compactRuns pages).map encodeRun)

/-- The loop of `SplitTool.getDividerRanges`: emits `⟨start, d⟩` for each
sorted divider `d` (advancing `start` to `d + 1`), then the final range
`⟨start, pageCount⟩` only if `start ≤ pageCount`. -/
def buildDividerRanges : List Nat → Nat → Nat → List PageRange
  | [], start, pc => if start ≤ pc then [⟨start, pc⟩] else []
  | d :: rest, start, pc => ⟨start, d⟩ :: buildDividerRanges rest (d + 1) pc

/-- `SplitTool.getDividerRanges()` (src/components/SplitTool.js): the divider
set (`this.splitDividers`, a JS `Set`) is sorted ascending
(`Array.from(set).sort((a, b) => a - b)`) and partitioned into contiguous
ranges ending at `this.pageCount`. -/
def getDividerRanges (splitDividers : Finset ℕ) (pageCount : Nat) : List PageRange :=
  buildDividerRanges (splitDividers.sort (· ≤ ·)) 1 pageCount

/-- Modelled from the spec's wording only (for comparison with
`getDividerRanges`): the ranges `[1..d1], [d1+1..d2], ..., [dk+1..totalPages]`
over an already-sorted divider list. -/
def specDividerRangesFrom (prev : Nat) : List Nat → Nat → List PageRange
  | [], tp => [⟨prev + 1, tp⟩]
  | d :: ds, tp => ⟨prev + 1, d⟩ :: specDividerRangesFrom d ds tp

/-- Spec wording, entry point: `specDividerRangesFrom` started at page 1. -/
def specDividerRanges (ds : List Nat) (tp : Nat) : List PageRange :=
  specDividerRangesFrom 0 ds tp

/-- The 1-based pages covered by a `PageRange`, in order. -/
def rangePages (r : PageRange) : List Nat :=
  List.range' r.start (r.stop + 1 - r.start)

/-- The 1-based pages covered by a compacted run `(s, e)`, in order. -/
def pairPages (q : Nat × Nat) : List Nat :=
  List.range' q.1 (q.2 + 1 - q.1)

/-! ## Merge planning (`PDFProcessor.mergePDFs`) -/

/-- An uploaded file as `mergePDFs` sees it: its identity, raw bytes, page
count, and whether `loadPDFFromBytes` succeeds on it (`valid = false` models
a corrupted PDF whose load rejects). -/
structure JSFile where
  id : Nat
  bytes : List Nat
  pageCount : Nat
  valid : Bool
  deriving DecidableEq, Repr

/-- The advanced-mode page-selection `Map`, keyed by file identity:
an association list `file id → selected 1-based page numbers`. -/
def PageSelections : Type := List (Nat × List Nat)

/-- `selectedPages.get(file)` / `selectedPages.has(file)` support. -/
def lookupSel (m : List (Nat × List Nat)) (fid : Nat) : Option (List Nat) :=
  match m.find? (fun e => e.1 = fid) with
  | some e => some e.2
  | none => none

/-- `selectedPages && selectedPages.has(files[0])` from the single-file
short-circuit of `mergePDFs`. -/
def hasEntry (sel : Option (List (Nat × List Nat))) (f : JSFile) : Bool :=
  match sel with
  | none => false
  | some m => (lookupSel m f.id).isSome

/-- Result of `mergePDFs`: either the single input file's bytes passed through
unchanged, or a page-copy plan of `(source file id, 0-based page index)`
pairs in destination order (the observable effect of the
`copyPages`/`addPage` calls). -/
inductive MergeOutput where
  | passthrough (bytes : List Nat)
  | merged (plan : List (Nat × Nat))
  deriving DecidableEq, Repr

/-- The per-file loop of `mergePDFs`.  An invalid file's load failure is
caught by the per-file `catch`, which **rethrows** a wrapping error, aborting
the whole loop.  A file with an entry in the map uses its selected pages
(0-based), an *empty* entry skips the file (`continue`), and a file *without*
an entry falls to the `else` branch and contributes **all** of its pages. -/
def mergeLoop (sel : Option (List (Nat × List Nat))) :
    List JSFile → Except String (List (Nat × Nat))
  | [] => .ok []
  | f :: fs =>
      if f.valid = false then .error "Failed to process file"
      else
        let pageIndices : Option (List Nat) :=
          match sel with
          | some m =>
              match lookupSel m f.id with
              | some pages =>
                  if pages = [] then none else some (pages.map (· - 1))
              | none => some (List.range f.pageCount)
          | none => some (List.range f.pageCount)
        match pageIndices with
        | none => mergeLoop sel fs
        | some idxs =>
            match mergeLoop sel fs with
            | .error e => .error e
            | .ok rest => .ok (idxs.map (fun i => (f.id, i)) ++ rest)

/-- `PDFProcessor.mergePDFs(files, selectedPages)`
(src/components/FileListManager.js): errors on an empty file list; a single
file with no selection entry is passed through byte-for-byte; otherwise the
per-file loop builds the page-copy plan. -/
def mergePDFs (files : List JSFile) (selectedPages : Option (List (Nat × List Nat))) :
    Except String MergeOutput :=
  match files with
  | [] => .error "No files provided for merging"
  | f :: fs =>
      if fs = [] ∧ hasEntry selectedPages f = false then
        .ok (.passthrough f.bytes)
      else
        match mergeLoop selectedPages (f :: fs) with
        | .error e => .error e
        | .ok plan => .ok (.merged plan)

/-- What one file contributes to an advanced-mode (`some m`) merge plan:
its selected pages 0-based if it has a non-empty entry, nothing on an empty
entry, and **all** its pages if it has no entry. -/
def advContribution (m : List (Nat × List Nat)) (f : JSFile) : List (Nat × Nat) :=
  match lookupSel m f.id with
  | some pages =>
      if pages = [] then [] else pages.map (fun p => (f.id, p - 1))
  | none => (List.range f.pageCount).map (fun i => (f.id, i))

/-! ## Word→PDF batch conversion (`WordConvertTool.handleConvertRequest`) -/

/-- A selected Word file: its name and whether
`wordConverter.convertWordToPDF` succeeds on it. -/
structure WordFile where
  name : List Char
  convertible : Bool
  deriving DecidableEq, Repr

/-- JavaScript `name.replace(/\.(docx?)$/i, '')`: strip one trailing `.doc` or
`.docx` extension, case-insensitively. -/
def stripWordExt (name : List Char) : List Char :=
  if ".docx".data.isSuffixOf (name.map Char.toLower) then
    name.take (name.length - 5)
  else if ".doc".data.isSuffixOf (name.map Char.toLower) then
    name.take (name.length - 4)
  else name

/-- `WordToPDFConverter.generatePDFFilename`:
`wordFileName.replace(/\.(docx?)$/i, '.pdf')` — the `.pdf` suffix is added
only when the Word extension actually matched. -/
def generatePDFFilename (name : List Char) : List Char :=
  if ".docx".data.isSuffixOf (name.map Char.toLower)
      ∨ ".doc".data.isSuffixOf (name.map Char.toLower) then
    stripWordExt name ++ ".pdf".data
  else name

/-- One entry of the `results` array built by `handleConvertRequest`. -/
structure ConvResult where
  filename : List Char
  originalName : List Char
  deriving DecidableEq, Repr

/-- `WordConvertTool.handleConvertRequest` (src/components/WordConvertTool.js),
observable core: an empty selection aborts early; otherwise each file is
converted inside its own `try`/`catch` — a failing file is logged and
**skipped** while the loop continues — and the batch errors only when the
`results` array stayed empty. -/
def handleConvertRequest (files : List WordFile) : Except String (List ConvResult) :=
  if files = [] then .error "No Word documents selected"
  else
    let results := files.filterMap fun f =>
      if f.convertible then some ⟨generatePDFFilename f.name, f.name⟩ else none
    if results = [] then .error "No files were successfully converted"
    else .ok results

/-! ## Conversion layout (`WordToPDFConverter.wrapText` / `addTextToPDF`) -/

/-- `maxCharsPerLine = Math.floor(maxWidth / (fontSize * 0.6))`, computed in
exact rational arithmetic: `maxWidth / (fontSize * 0.6) = maxWidth·10 /
(fontSize·6)`.  At the font sizes the converter uses (11, 12, 14) with
`maxWidth = 512` this agrees with the JS float computation (77, 71, 60). -/
def maxCharsPerLine (maxWidth fontSize : Nat) : Nat :=
  maxWidth * 10 / (fontSize * 6)

/-- State of the word-wrap loop: emitted lines plus the line under
construction. -/
structure WrapState where
  lines : List (List Char)
  currentLine : List Char
  deriving DecidableEq, Repr

/-- `` const testLine = currentLine ? `${currentLine} ${word}` : word ``. -/
def wrapTestLine (st : WrapState) (word : List Char) : List Char :=
  if st.currentLine = [] then word else st.currentLine ++ ' ' :: word

/-- One iteration of the `for (const word of words)` loop in `wrapText`:
append the word if the line stays within budget; otherwise emit the current
line and start over with the word — or, when the current line is empty,
hard-split the word at the character budget. -/
def wrapStep (maxChars : Nat) (st : WrapState) (word : List Char) : WrapState :=
  if (wrapTestLine st word).length ≤ maxChars then
    { st with currentLine := wrapTestLine st word }
  else if st.currentLine ≠ [] then
    { lines := st.lines ++ [st.currentLine], currentLine := word }
  else
    { lines := st.lines ++ [word.take maxChars], currentLine := word.drop maxChars }

/-- The trailing `if (currentLine) lines.push(currentLine)` of `wrapText`. -/
def wrapFlush (st : WrapState) : List (List Char) :=
  if st.currentLine ≠ [] then st.lines ++ [st.currentLine] else st.lines

/-- `WordToPDFConverter.wrapText(text, maxWidth, fontSize)`
(src/components/WordToPDFConverter.js): split on single spaces, greedily pack
words, flush the trailing line if non-empty. -/
def wrapText (text : List Char) (maxWidth fontSize : Nat) : List (List Char) :=
  wrapFlush ((splitOnChar ' ' text).foldl
    (wrapStep (maxCharsPerLine maxWidth fontSize)) ⟨[], []⟩)

/-- A text block extracted from the converted HTML (`{ text, style }`). -/
structure TextBlock where
  text : List Char
  style : List Char
  deriving DecidableEq, Repr

/-- `WordToPDFConverter.getFontSize(style)`: heading 14, list 11, default 12. -/
def getFontSize (style : List Char) : Nat :=
  if style = "heading".data then 14
  else if style = "list".data then 11
  else 12

/-- One `page.drawText(...)` call: the drawn string with its position and
font size. -/
structure DrawnText where
  text : List Char
  x : Int
  y : Int
  size : Nat
  deriving DecidableEq, Repr

/-- A PDF page as the sequence of texts drawn on it. -/
def PDFPage : Type := List DrawnText

/-- State of the layout loop of `addTextToPDF`: finished pages, the current
page, and the cursor `yPosition`. -/
structure LayoutState where
  pages : List (List DrawnText)
  current : List DrawnText
  y : Int

/-- Drawing one wrapped line in `addTextToPDF`: page-break first when the
remaining vertical space is below one line height, then draw and advance. -/
def drawLine (fontSize : Nat) (st : LayoutState) (line : List Char) : LayoutState :=
  let lineHeight : Int := (fontSize : Int) + 4
  let st1 := if st.y < 50 + lineHeight then
      { pages := st.pages ++ [st.current], current := [], y := (792 : Int) - 50 }
    else st
  { pages := st1.pages,
    current := st1.current ++ [⟨line, 50, st1.y, fontSize⟩],
    y := st1.y - lineHeight }

/-- Laying out one text block in `addTextToPDF`: wrap at the usable width
(512 pt), draw each line, then leave a 5 pt gap after the block. -/
def layoutBlock (st : LayoutState) (b : TextBlock) : LayoutState :=
  let fs := getFontSize b.style
  let st1 := (wrapText b.text 512 fs).foldl (drawLine fs) st
  { st1 with y := st1.y - 5 }

/-- The fixed fallback notice drawn when no text content was extracted. -/
def fallbackNotice : List Char :=
  "No readable content found in the Word document.".data

/-- `WordToPDFConverter.addTextToPDF(pdfDoc, textContent, fileName)`
(src/components/WordToPDFConverter.js), as the page list it produces on a
fresh document: empty content yields a single page holding the fallback
notice at `(50, 750)` size 12; otherwise a title line (the filename with its
Word extension stripped, size 16 at `y = 742`) is followed by the laid-out
blocks starting at `y = 702`. -/
def addTextToPDF (textContent : List TextBlock) (fileName : List Char) :
    List (List DrawnText) :=
  if textContent = [] then
    [[⟨fallbackNotice, 50, 750, 12⟩]]
  else
    let title := stripWordExt fileName
    let st0 : LayoutState :=
      { pages := [], current := [⟨title, 50, 742, 16⟩], y := 702 }
    let st := textContent.foldl layoutBlock st0
    st.pages ++ [st.current]

/-! ## Spec-side failure conditions for the split-range parser (C4) -/

/-- Spec condition (C4): "some numeric token fails to parse as an integer",
judged with the code's `parseInt` on the same token pieces. -/
def tokenNumericBad (tok : List Char) : Bool :=
  if tok.contains '-' then
    ((((splitOnChar '-' tok).map jsTrim).get? 0).bind parseIntJS).isNone
      || ((((splitOnChar '-' tok).map jsTrim).get? 1).bind parseIntJS).isNone
  else (parseIntJS tok).isNone

/-- Spec condition (C4): "some single page or range bound falls outside
`[1, totalPages]`". -/
def tokenOutOfBounds (tok : List Char) (tp : Nat) : Bool :=
  if tok.contains '-' then
    match (((splitOnChar '-' tok).map jsTrim).get? 0).bind parseIntJS,
          (((splitOnChar '-' tok).map jsTrim).get? 1).bind parseIntJS with
    | some s, some e => decide (s < 1 ∨ e < 1 ∨ s > (tp : Int) ∨ e > (tp : Int))
    | _, _ => false
  else
    match parseIntJS tok with
    | some p => decide (p < 1 ∨ p > (tp : Int))
    | none => false

/-- Spec condition (C4): "a two-sided range has start > end". -/
def tokenInverted (tok : List Char) : Bool :=
  if tok.contains '-' then
    match (((splitOnChar '-' tok).map jsTrim).get? 0).bind parseIntJS,
          (((splitOnChar '-' tok).map jsTrim).get? 1).bind parseIntJS with
    | some s, some e => decide (e < s)
    | _, _ => false
  else false

/-- The failure condition exactly as claim C4 states it: empty or
whitespace-only text, or some non-empty token that is numerically bad,
out of bounds, or inverted. -/
def specParseFails (text : List Char) (tp : Nat) : Bool :=
  decide (jsTrim text = [])
    || (nonEmptyTokens text).any fun t =>
        tokenNumericBad t || tokenOutOfBounds t tp || tokenInverted t

/-- C8: the ascending list of pages covered by a parsed range list within a
`totalPages`-page document (the union of the parsed ranges). -/
def unionPages (rs : List PageRange) (tp : Nat) : List Nat :=
  (List.range' 1 tp).filter fun p =>
    rs.any fun r => decide (r.start ≤ p ∧ p ≤ r.stop)

/-! ## Lemmas about the merge loop -/

/-- With an advanced map and only loadable files, the merge loop produces
exactly the concatenation of the per-file contributions. -/
theorem mergeLoop_all_valid (m : List (Nat × List Nat)) :
    ∀ l : List JSFile, (∀ g ∈ l, g.valid = true) →
      mergeLoop (some m) l = .ok (l.flatMap (advContribution m)) := by
  intro l
  induction l with
  | nil => intro _; rfl
  | cons f fs ih =>
      intro hv
      have hf : f.valid = true := hv f (List.mem_cons_self f fs)
      have hfs : ∀ g ∈ fs, g.valid = true := fun g hg => hv g (List.mem_cons_of_mem f hg)
      unfold mergeLoop
      rw [hf]
      simp only [Bool.true_eq_false, if_false, List.flatMap_cons]
      cases hsel : lookupSel m f.id with
      | some pages =>
          by_cases hp : pages = []
          · simp only [hsel, hp, if_pos rfl]
            rw [ih hfs]
            simp [advContribution, hsel, hp]
          · simp only [hsel, if_neg hp]
            rw [ih hfs]
            simp [advContribution, hsel, hp, List.map_map, Function.comp_def]
      | none =>
          simp only [hsel]
          rw [ih hfs]
          simp [advContribution, hsel]

/-- A file whose load fails anywhere in the list makes the whole merge loop
fail (the per-file `catch` rethrows). -/
theorem mergeLoop_error_of_invalid (sel : Option (List (Nat × List Nat))) :
    ∀ l : List JSFile, (∃ f ∈ l, f.valid = false) →
      ∃ e, mergeLoop sel l = .error e := by
  intro l
  induction l with
  | nil => rintro ⟨f, hf, _⟩; exact absurd hf (List.not_mem_nil f)
  | cons f fs ih =>
      rintro ⟨g, hg, hgv⟩
      unfold mergeLoop
      by_cases hf : f.valid = false
      · rw [hf]; exact ⟨_, rfl⟩
      · have hgfs : g ∈ fs := by
          rcases List.mem_cons.1 hg with h | h
          · exact absurd (h ▸ hgv) hf
          · exact h
        obtain ⟨e, he⟩ := ih ⟨g, hgfs, hgv⟩
        have hft : f.valid = true := by
          cases hx : f.valid
          · exact absurd hx hf
          · rfl
        rw [hft]
        simp only [Bool.true_eq_false, if_false]
        refine ⟨e, ?_⟩
        rw [he]
        split
        · rfl
        · rfl

/-! ## Claim theorems C1–C3, C9 -/

/-- C1, counterexample: in advanced mode with documents A (1 page, selection
{1}), B (3 pages, selection {2,3}) and C (2 pages, absent from the mapping),
the page-copy plan is [A:1, B:2, B:3, C:1, C:2] — C contributes **all** of
its pages, not zero, so the plan is not `[A:1, B:2, B:3]`. -/
theorem c1_absent_doc_counterexample :
    mergePDFs
        [⟨0, [10], 1, true⟩, ⟨1, [11], 3, true⟩, ⟨2, [12], 2, true⟩]
        (some [(0, [1]), (1, [2, 3])])
      = .ok (.merged [(0, 0), (1, 1), (1, 2), (2, 0), (2, 1)]) ∧
    ((2, 0) ∈ [(0, 0), (1, 1), (1, 2), (2, 0), (2, 1)] ∧
      [(0, 0), (1, 1), (1, 2), (2, 0), (2, 1)] ≠ [(0, 0), (1, 1), (1, 2)]) := by
  exact ⟨rfl, by decide, by decide⟩

/-- C1 (amended): in advanced mode (mapping supplied), a document with a
non-empty entry contributes exactly its listed pages in order, a document
whose entry is the empty list contributes zero pages, and a document with
**no** entry in the mapping contributes **all** of its pages — the plan is
the in-order concatenation of these per-document contributions (provided
every file loads and the single-file passthrough does not apply). -/
theorem c1_advanced_merge_plan (f : JSFile) (fs : List JSFile)
    (m : List (Nat × List Nat))
    (hvalid : ∀ g ∈ f :: fs, g.valid = true)
    (hnopass : fs ≠ [] ∨ hasEntry (some m) f = true) :
    mergePDFs (f :: fs) (some m)
      = .ok (.merged ((f :: fs).flatMap (advContribution m))) := by
  have hloop := mergeLoop_all_valid m (f :: fs) hvalid
  have hcond : ¬(fs = [] ∧ hasEntry (some m) f = false) := by
    rcases hnopass with h | h
    · exact fun hc => h hc.1
    · intro hc; rw [h] at hc; exact absurd hc.2 (by simp)
  show (if fs = [] ∧ hasEntry (some m) f = false then
          Except.ok (MergeOutput.passthrough f.bytes)
        else
          match mergeLoop (some m) (f :: fs) with
          | .error e => .error e
          | .ok plan => .ok (.merged plan))
    = Except.ok (MergeOutput.merged ((f :: fs).flatMap (advContribution m)))
  rw [if_neg hcond, hloop]

/-- C1, witness: the amended theorem evaluated on the A/B/C example. -/
theorem c1_advanced_merge_plan_witness :
    mergePDFs
        [⟨0, [10], 1, true⟩, ⟨1, [11], 3, true⟩, ⟨2, [12], 2, true⟩]
        (some [(0, [1]), (1, [2, 3])])
      = .ok (.merged [(0, 0), (1, 1), (1, 2), (2, 0), (2, 1)]) :=
  (c1_advanced_merge_plan ⟨0, [10], 1, true⟩
      [⟨1, [11], 3, true⟩, ⟨2, [12], 2, true⟩] [(0, [1]), (1, [2, 3])]
      (by decide) (Or.inl (by simp))).trans (by rfl)

/-- C2, counterexample: a two-file merge where the second file fails to load
errors out even though the first file alone merges fine — the merge batch
does not skip the failing file, contradicting the claim for merge; the
Word-conversion batch, by contrast, does skip its failing file. -/
theorem c2_batch_counterexample :
    (mergePDFs [⟨0, [1], 2, true⟩, ⟨1, [2], 2, false⟩] none).isOk = false ∧
    mergePDFs [⟨0, [1], 2, true⟩] none = .ok (.passthrough [1]) ∧
    handleConvertRequest [⟨"a.docx".data, true⟩, ⟨"b.docx".data, false⟩]
      = .ok [⟨"a.pdf".data, "a.docx".data⟩] :=
  ⟨rfl, rfl, rfl⟩

/-- C2 (amended): in the multi-file Word-to-PDF conversion a per-file failure
only skips that file and the batch errors exactly when zero files succeed;
but in the multi-file merge any per-file failure aborts the whole merge with
an error. -/
theorem c2_batch_error_policy :
    (∀ files : List WordFile, (∃ f ∈ files, f.convertible = true) →
        handleConvertRequest files
          = .ok (files.filterMap fun f =>
              if f.convertible then some ⟨generatePDFFilename f.name, f.name⟩
              else none)) ∧
    (∀ files : List WordFile, files ≠ [] →
        (∀ f ∈ files, f.convertible = false) →
        (handleConvertRequest files).isOk = false) ∧
    (∀ (files : List JSFile) (sel : Option (List (Nat × List Nat))),
        2 ≤ files.length → (∃ f ∈ files, f.valid = false) →
        (mergePDFs files sel).isOk = false) := by
  refine ⟨?_, ?_, ?_⟩
  · rintro files ⟨f, hf, hconv⟩
    have hne : files ≠ [] := List.ne_nil_of_mem hf
    unfold handleConvertRequest
    rw [if_neg hne]
    have hmem : (⟨generatePDFFilename f.name, f.name⟩ : ConvResult) ∈
        files.filterMap fun g =>
          if g.convertible then some ⟨generatePDFFilename g.name, g.name⟩
          else none := by
      apply List.mem_filterMap.2
      exact ⟨f, hf, by rw [hconv]; simp⟩
    rw [if_neg (List.ne_nil_of_mem hmem)]
  · intro files hne hall
    unfold handleConvertRequest
    rw [if_neg hne]
    have : (files.filterMap fun f =>
        if f.convertible then some (⟨generatePDFFilename f.name, f.name⟩ : ConvResult)
        else none) = [] := by
      apply List.filterMap_eq_nil_iff.2
      intro f hf
      rw [hall f hf]
      simp
    rw [this]
    rfl
  · intro files sel hlen hbad
    match files with
    | [] => simp at hlen
    | [f] => simp at hlen
    | f :: g :: fs =>
        obtain ⟨e, he⟩ := mergeLoop_error_of_invalid sel (f :: g :: fs) hbad
        have hcond : ¬(g :: fs = [] ∧ hasEntry sel f = false) := by
          intro hc; exact List.cons_ne_nil g fs hc.1
        show (if g :: fs = [] ∧ hasEntry sel f = false then
                Except.ok (MergeOutput.passthrough f.bytes)
              else
                match mergeLoop sel (f :: g :: fs) with
                | .error e => .error e
                | .ok plan => .ok (.merged plan)).isOk = false
        rw [if_neg hcond, he]
        rfl

/-- C2, witness: the amended policy at concrete inputs — a conversion batch
with one failing file succeeds on the rest, an all-failing batch errors, and
a merge batch with one bad file errors. -/
theorem c2_batch_error_policy_witness :
    handleConvertRequest [⟨"a.docx".data, true⟩, ⟨"b.docx".data, false⟩]
      = .ok [⟨"a.pdf".data, "a.docx".data⟩] ∧
    (handleConvertRequest [⟨"b.docx".data, false⟩]).isOk = false ∧
    (mergePDFs [⟨0, [1], 2, true⟩, ⟨1, [2], 2, false⟩] none).isOk = false := by
  refine ⟨?_, ?_, ?_⟩
  · exact (c2_batch_error_policy.1 [⟨"a.docx".data, true⟩, ⟨"b.docx".data, false⟩]
      ⟨⟨"a.docx".data, true⟩, by simp, rfl⟩).trans (by rfl)
  · exact c2_batch_error_policy.2.1 [⟨"b.docx".data, false⟩] (by simp) (by decide)
  · exact c2_batch_error_policy.2.2 [⟨0, [1], 2, true⟩, ⟨1, [2], 2, false⟩] none
      (by simp) ⟨⟨1, [2], 2, false⟩, by simp, rfl⟩

/-- C3: a single-document merge with no page-selection entry for that
document returns the source document's bytes unchanged (`passthrough`),
both in simple mode (no mapping) and in advanced mode when the mapping has
no entry for the document. -/
theorem c3_single_file_passthrough (f : JSFile) :
    mergePDFs [f] none = .ok (.passthrough f.bytes) ∧
    (∀ m : List (Nat × List Nat), lookupSel m f.id = none →
      mergePDFs [f] (some m) = .ok (.passthrough f.bytes)) := by
  constructor
  · show (if ([] : List JSFile) = [] ∧ hasEntry none f = false then
            Except.ok (MergeOutput.passthrough f.bytes)
          else
            match mergeLoop none [f] with
            | .error e => .error e
            | .ok plan => .ok (.merged plan))
      = Except.ok (MergeOutput.passthrough f.bytes)
    rw [if_pos ⟨rfl, rfl⟩]
  · intro m hm
    have hent : hasEntry (some m) f = false := by
      show (lookupSel m f.id).isSome = false
      rw [hm]
      rfl
    show (if ([] : List JSFile) = [] ∧ hasEntry (some m) f = false then
            Except.ok (MergeOutput.passthrough f.bytes)
          else
            match mergeLoop (some m) [f] with
            | .error e => .error e
            | .ok plan => .ok (.merged plan))
      = Except.ok (MergeOutput.passthrough f.bytes)
    rw [if_pos ⟨rfl, hent⟩]

/-- C3, witness: the passthrough theorem evaluated on a concrete file. -/
theorem c3_single_file_passthrough_witness :
    mergePDFs [⟨5, [9, 9], 3, true⟩] none = .ok (.passthrough [9, 9]) ∧
    mergePDFs [⟨5, [9, 9], 3, true⟩] (some [(7, [1])]) = .ok (.passthrough [9, 9]) :=
  ⟨(c3_single_file_passthrough ⟨5, [9, 9], 3, true⟩).1,
   (c3_single_file_passthrough ⟨5, [9, 9], 3, true⟩).2 [(7, [1])] rfl⟩

/-- C9: a conversion input with zero extractable text blocks produces exactly
one page, holding the fixed fallback notice; the page count is 1, never 0. -/
theorem c9_empty_input_fallback (fileName : List Char) :
    addTextToPDF [] fileName = [[⟨fallbackNotice, 50, 750, 12⟩]] ∧
    (addTextToPDF [] fileName).length = 1 := by
  constructor
  · rfl
  · rfl

/-! ## Lemmas about divider ranges (C7) -/

/-- The divider loop agrees with the spec's wording
`[prev+1..d1], [d1+1..d2], ..., [dk+1..totalPages]` as long as every divider
lies strictly below the page count. -/
theorem buildDividerRanges_eq_spec :
    ∀ (l : List Nat) (prev tp : Nat), prev + 1 ≤ tp → (∀ d ∈ l, d < tp) →
      buildDividerRanges l (prev + 1) tp = specDividerRangesFrom prev l tp := by
  intro l
  induction l with
  | nil =>
      intro prev tp h _
      show (if prev + 1 ≤ tp then [(⟨prev + 1, tp⟩ : PageRange)] else [])
        = [⟨prev + 1, tp⟩]
      rw [if_pos h]
  | cons d rest ih =>
      intro prev tp _ hd
      have hdtp : d < tp := hd d (by simp)
      show (⟨prev + 1, d⟩ : PageRange) :: buildDividerRanges rest (d + 1) tp
        = ⟨prev + 1, d⟩ :: specDividerRangesFrom d rest tp
      congr 1
      exact ih d tp (by omega) fun x hx => hd x (by simp [hx])

/-- The ranges the divider loop emits cover `[start..totalPages]` exactly
once, in order, for a strictly ascending in-bounds divider list. -/
theorem buildDividerRanges_pages :
    ∀ (l : List Nat) (start tp : Nat), start ≤ tp →
      (∀ d ∈ l, start ≤ d ∧ d < tp) → List.Sorted (· < ·) l →
      (buildDividerRanges l start tp).flatMap rangePages
        = List.range' start (tp + 1 - start) := by
  intro l
  induction l with
  | nil =>
      intro start tp h _ _
      show (if start ≤ tp then [(⟨start, tp⟩ : PageRange)] else []).flatMap rangePages
        = List.range' start (tp + 1 - start)
      rw [if_pos h]
      simp [rangePages]
  | cons d rest ih =>
      intro start tp _ hd hsorted
      have hd1 : start ≤ d := (hd d (by simp)).1
      have hd2 : d < tp := (hd d (by simp)).2
      have hrest : ∀ x ∈ rest, d + 1 ≤ x ∧ x < tp := by
        intro x hx
        have hlt := (List.sorted_cons.1 hsorted).1 x hx
        exact ⟨by omega, (hd x (by simp [hx])).2⟩
      show ((⟨start, d⟩ : PageRange) :: buildDividerRanges rest (d + 1) tp).flatMap rangePages
        = List.range' start (tp + 1 - start)
      rw [List.flatMap_cons,
        ih (d + 1) tp (by omega) hrest (List.sorted_cons.1 hsorted).2]
      have happ := List.range'_append_1 start (d + 1 - start) (tp + 1 - (d + 1))
      rw [show start + (d + 1 - start) = d + 1 by omega] at happ
      rw [show tp + 1 - (d + 1) + (d + 1 - start) = tp + 1 - start by omega] at happ
      calc rangePages ⟨start, d⟩ ++ List.range' (d + 1) (tp + 1 - (d + 1))
          = List.range' start (d + 1 - start) ++ List.range' (d + 1) (tp + 1 - (d + 1)) := rfl
        _ = List.range' start (tp + 1 - start) := happ

/-- C7: for dividers `D ⊆ [1, totalPages-1]` and `totalPages ≥ 1`,
`getDividerRanges` sorts `D` ascending and returns exactly the spec's
contiguous ranges `[1..d1], [d1+1..d2], ..., [dk+1..totalPages]`, whose
concatenated pages are precisely `1..totalPages` (a partition, in order);
the empty divider set yields the single range `[1..totalPages]`. -/
theorem c7_divider_partition (D : Finset ℕ) (tp : Nat)
    (htp : 1 ≤ tp) (hD : ∀ d ∈ D, 1 ≤ d ∧ d ≤ tp - 1) :
    getDividerRanges D tp = specDividerRanges (D.sort (· ≤ ·)) tp ∧
    (getDividerRanges D tp).flatMap rangePages = List.range' 1 tp ∧
    (D = ∅ → getDividerRanges D tp = [⟨1, tp⟩]) := by
  have hmem : ∀ d ∈ D.sort (· ≤ ·), 1 ≤ d ∧ d < tp := by
    intro d hd
    have := hD d ((Finset.mem_sort (· ≤ ·)).1 hd)
    omega
  have hpw : List.Sorted (· < ·) (D.sort (· ≤ ·)) := Finset.sort_sorted_lt D
  refine ⟨?_, ?_, ?_⟩
  · exact buildDividerRanges_eq_spec (D.sort (· ≤ ·)) 0 tp (by omega)
      fun d hd => (hmem d hd).2
  · have hp := buildDividerRanges_pages (D.sort (· ≤ ·)) 1 tp htp
      (fun d hd => hmem d hd) hpw
    rw [show tp + 1 - 1 = tp by omega] at hp
    exact hp
  · intro hempty
    subst hempty
    unfold getDividerRanges
    rw [Finset.sort_empty]
    show (if 1 ≤ tp then [(⟨1, tp⟩ : PageRange)] else []) = [⟨1, tp⟩]
    rw [if_pos htp]

/-- C7, witness: dividers `{2, 4}` on a 6-page document. -/
theorem c7_divider_partition_witness :
    getDividerRanges {2, 4} 6 = specDividerRanges (Finset.sort (· ≤ ·) {2, 4}) 6 ∧
    (getDividerRanges {2, 4} 6).flatMap rangePages = List.range' 1 6 ∧
    (({2, 4} : Finset ℕ) = ∅ → getDividerRanges {2, 4} 6 = [⟨1, 6⟩]) :=
  c7_divider_partition {2, 4} 6 (by decide) (by decide)

/-! ## Lemmas about word-wrap (C5) -/

/-- The wrap loop keeps every emitted line and the line under construction
within the character budget, provided every remaining word fits the budget
on its own. -/
theorem wrapFold_inv (n : Nat) :
    ∀ (words : List (List Char)) (st : WrapState),
      (∀ w ∈ words, w.length ≤ n) →
      (∀ l ∈ st.lines, l.length ≤ n) → st.currentLine.length ≤ n →
      (∀ l ∈ (words.foldl (wrapStep n) st).lines, l.length ≤ n) ∧
        (words.foldl (wrapStep n) st).currentLine.length ≤ n := by
  intro words
  induction words with
  | nil => intro st _ h1 h2; exact ⟨h1, h2⟩
  | cons w ws ih =>
      intro st hw h1 h2
      have hwn : w.length ≤ n := hw w (by simp)
      have hstep : (∀ l ∈ (wrapStep n st w).lines, l.length ≤ n) ∧
          (wrapStep n st w).currentLine.length ≤ n := by
        unfold wrapStep
        split_ifs with hfit hne
        · exact ⟨h1, hfit⟩
        · refine ⟨?_, hwn⟩
          intro l hl
          rcases List.mem_append.1 hl with h | h
          · exact h1 l h
          · rw [List.mem_singleton.1 h]; exact h2
        · have hcur : st.currentLine = [] := by
            by_cases hx : st.currentLine = []
            · exact hx
            · exact absurd hx hne
          exact absurd (by rwa [wrapTestLine, if_pos hcur]) hfit
      rw [List.foldl_cons]
      exact ih (wrapStep n st w) (fun x hx => hw x (by simp [hx])) hstep.1 hstep.2

/-- C5, counterexample: with font size 12 the per-line budget is
⌊512 / 7.2⌋ = 71 characters, yet wrapping `"a "` followed by a 72-character
word emits that word as a whole line of 72 characters — the hard split only
happens when the long word starts an empty line. -/
theorem c5_budget_counterexample :
    wrapText ('a' :: ' ' :: List.replicate 72 'b') 512 12
      = [['a'], List.replicate 72 'b'] ∧
    maxCharsPerLine 512 12 = 71 ∧
    (List.replicate 72 'b').length = 72 := by
  refine ⟨by rfl, rfl, by simp⟩

/-- C5 (amended): every line emitted by the word-wrap step fits the
character budget `⌊usable width / (fontSize·0.6)⌋` **provided every word of
the text fits the budget on its own**; a longer word is emitted as an
over-budget line whenever it does not start an empty line (and only a
leading over-long word is hard-split). -/
theorem c5_wrap_budget (text : List Char) (fontSize : Nat)
    (h : ∀ w ∈ splitOnChar ' ' text, w.length ≤ maxCharsPerLine 512 fontSize) :
    ∀ line ∈ wrapText text 512 fontSize,
      line.length ≤ maxCharsPerLine 512 fontSize := by
  intro line hline
  have hinv := wrapFold_inv (maxCharsPerLine 512 fontSize) (splitOnChar ' ' text)
    ⟨[], []⟩ h (by intro l hl; exact absurd hl (List.not_mem_nil l)) (by simp)
  unfold wrapText wrapFlush at hline
  split_ifs at hline
  · rcases List.mem_append.1 hline with hm | hm
    · exact hinv.1 line hm
    · rw [List.mem_singleton.1 hm]; exact hinv.2
  · exact hinv.1 line hline

/-- C5, witness: the amended budget bound on a small concrete text. -/
theorem c5_wrap_budget_witness :
    (∀ w ∈ splitOnChar ' ' "hello world".data,
        w.length ≤ maxCharsPerLine 512 12) ∧
    ∀ line ∈ wrapText "hello world".data 512 12,
      line.length ≤ maxCharsPerLine 512 12 :=
  ⟨by decide, c5_wrap_budget "hello world".data 12 (by decide)⟩

/-! ## Lemmas about the lenient parser (C10) -/

/-- Membership after the dedup-push. -/
theorem mem_addIfAbsent (pages : List Nat) (i q : Nat) :
    q ∈ addIfAbsent pages i ↔ q ∈ pages ∨ q = i := by
  unfold addIfAbsent
  split_ifs with h
  · constructor
    · exact Or.inl
    · rintro (hq | rfl)
      · exact hq
      · exact h
  · simp [List.mem_append]

/-- The dedup-push preserves duplicate-freedom. -/
theorem nodup_addIfAbsent (pages : List Nat) (i : Nat) (h : pages.Nodup) :
    (addIfAbsent pages i).Nodup := by
  unfold addIfAbsent
  split_ifs with hmem
  · exact h
  · rw [List.nodup_append]
    refine ⟨h, List.nodup_singleton i, ?_⟩
    intro a ha hai
    rw [List.mem_singleton.1 hai] at ha
    exact hmem ha

/-- Folding the dedup-push keeps the accumulator duplicate-free, and every
element of the result came from the accumulator or the pushed list. -/
theorem foldl_addIfAbsent_inv :
    ∀ (l : List Nat) (pages : List Nat), pages.Nodup →
      (l.foldl addIfAbsent pages).Nodup ∧
        ∀ q ∈ l.foldl addIfAbsent pages, q ∈ pages ∨ q ∈ l := by
  intro l
  induction l with
  | nil => intro pages h; exact ⟨h, fun q hq => Or.inl hq⟩
  | cons i is ih =>
      intro pages h
      rw [List.foldl_cons]
      obtain ⟨h1, h2⟩ := ih (addIfAbsent pages i) (nodup_addIfAbsent pages i h)
      refine ⟨h1, ?_⟩
      intro q hq
      rcases h2 q hq with hq' | hq'
      · rcases (mem_addIfAbsent pages i q).1 hq' with h3 | h3
        · exact Or.inl h3
        · exact Or.inr (by simp [h3])
      · exact Or.inr (by simp [hq'])

/-- One lenient-parser token step preserves the invariant: duplicate-free and
all pages within `[1, totalPages]`. -/
theorem parsePagesStep_inv (tp : Nat) (pages : List Nat) (part : List Char)
    (hnd : pages.Nodup) (hb : ∀ q ∈ pages, 1 ≤ q ∧ q ≤ tp) :
    (parsePagesStep tp pages part).Nodup ∧
      ∀ q ∈ parsePagesStep tp pages part, 1 ≤ q ∧ q ≤ tp := by
  unfold parsePagesStep
  split_ifs with h1 h2
  · exact ⟨hnd, hb⟩
  · cases hs : (((splitOnChar '-' part).map jsTrim).get? 0).bind parseIntJS with
    | none => exact ⟨hnd, hb⟩
    | some s =>
        cases he : (((splitOnChar '-' part).map jsTrim).get? 1).bind parseIntJS with
        | none => exact ⟨hnd, hb⟩
        | some e =>
            simp only
            split_ifs with hcond
            · obtain ⟨g1, g2⟩ := foldl_addIfAbsent_inv
                (List.range' s.toNat (e.toNat + 1 - s.toNat)) pages hnd
              refine ⟨g1, ?_⟩
              intro q hq
              rcases g2 q hq with h | h
              · exact hb q h
              · rw [List.mem_range'_1] at h
                obtain ⟨hc1, hc2, hc3⟩ := hcond
                omega
            · exact ⟨hnd, hb⟩
  · cases hp : parseIntJS part with
    | none => exact ⟨hnd, hb⟩
    | some p =>
        simp only
        split_ifs with hcond
        · refine ⟨nodup_addIfAbsent pages p.toNat hnd, ?_⟩
          intro q hq
          rcases (mem_addIfAbsent pages p.toNat q).1 hq with h | h
          · exact hb q h
          · obtain ⟨hc1, hc2⟩ := hcond
            omega
        · exact ⟨hnd, hb⟩

/-- The whole lenient token fold preserves the invariant. -/
theorem parsePagesFold_inv (tp : Nat) :
    ∀ (parts : List (List Char)) (pages : List Nat),
      pages.Nodup → (∀ q ∈ pages, 1 ≤ q ∧ q ≤ tp) →
      (parts.foldl (parsePagesStep tp) pages).Nodup ∧
        ∀ q ∈ parts.foldl (parsePagesStep tp) pages, 1 ≤ q ∧ q ≤ tp := by
  intro parts
  induction parts with
  | nil => intro pages g1 g2; exact ⟨g1, g2⟩
  | cons p ps ih =>
      intro pages g1 g2
      rw [List.foldl_cons]
      obtain ⟨k1, k2⟩ := parsePagesStep_inv tp pages p g1 g2
      exact ih (parsePagesStep tp pages p) k1 k2

/-- A weakly sorted duplicate-free list is strictly sorted. -/
theorem sorted_lt_of_sorted_le_nodup {l : List Nat}
    (hs : List.Sorted (· ≤ ·) l) (hn : l.Nodup) : List.Sorted (· < ·) l :=
  (List.Pairwise.and hs hn).imp fun h => lt_of_le_of_ne h.1 h.2

/-- C10: the advanced-merge page-range parser is total and lenient — its
result is always strictly sorted ascending (hence duplicate-free) and
contained in `[1, totalPages]`, and the malformed, out-of-bounds, and
inverted tokens that make the split-range parser raise a validation error
are silently dropped (yielding `[]` on the same inputs). -/
theorem c10_lenient_parser_safety (text : List Char) (tp : Nat) :
    List.Sorted (· < ·) (parsePageRanges text tp) ∧
    (∀ q ∈ parsePageRanges text tp, 1 ≤ q ∧ q ≤ tp) ∧
    (parsePageRanges text tp).Nodup ∧
    (parsePageRanges ("3-1".data) 10 = [] ∧
      (validateAndParseRanges ("3-1".data) 10).isOk = false) ∧
    (parsePageRanges ("abc".data) 10 = [] ∧
      (validateAndParseRanges ("abc".data) 10).isOk = false) ∧
    (parsePageRanges ("1-15".data) 10 = [] ∧
      (validateAndParseRanges ("1-15".data) 10).isOk = false) := by
  unfold parsePageRanges
  have hfold := parsePagesFold_inv tp (tokensOf text) [] List.nodup_nil
    (by intro q hq; exact absurd hq (List.not_mem_nil q))
  have hperm := List.perm_insertionSort (· ≤ ·)
    ((tokensOf text).foldl (parsePagesStep tp) [])
  have hnodup := (hperm.nodup_iff).2 hfold.1
  have hsortedle := List.sorted_insertionSort (· ≤ ·)
    ((tokensOf text).foldl (parsePagesStep tp) [])
  refine ⟨sorted_lt_of_sorted_le_nodup hsortedle hnodup, ?_, hnodup,
    ⟨by decide, by decide⟩, ⟨by decide, by decide⟩, ⟨by decide, by decide⟩⟩
  intro q hq
  exact hfold.2 q (hperm.mem_iff.1 hq)

/-- C10, witness: the safety invariants evaluated at a concrete input. -/
theorem c10_lenient_parser_safety_witness :
    List.Sorted (· < ·) (parsePageRanges ("5, 2-4".data) 10) ∧
    (∀ q ∈ parsePageRanges ("5, 2-4".data) 10, 1 ≤ q ∧ q ≤ 10) ∧
    (parsePageRanges ("5, 2-4".data) 10).Nodup ∧
    (parsePageRanges ("3-1".data) 10 = [] ∧
      (validateAndParseRanges ("3-1".data) 10).isOk = false) ∧
    (parsePageRanges ("abc".data) 10 = [] ∧
      (validateAndParseRanges ("abc".data) 10).isOk = false) ∧
    (parsePageRanges ("1-15".data) 10 = [] ∧
      (validateAndParseRanges ("1-15".data) 10).isOk = false) :=
  c10_lenient_parser_safety ("5, 2-4".data) 10


/-- `isOk` evaluates to `false` on an error. -/
@[simp] theorem isOk_error {α : Type} (e : String) :
    (Except.error e : Except String α).isOk = false := rfl

/-- `isOk` evaluates to `true` on a success. -/
@[simp] theorem isOk_ok {α : Type} (a : α) :
    (Except.ok a : Except String α).isOk = true := rfl

/-- Step equation of the token loop on the empty token list. -/
theorem parseTokens_nil (tp : Nat) : parseTokens [] tp = .ok [] := rfl

/-- Step equation of the token loop on a cons. -/
theorem parseTokens_cons (p : List Char) (ps : List (List Char)) (tp : Nat) :
    parseTokens (p :: ps) tp =
      if p = [] then parseTokens ps tp
      else
        match parseRangeToken p tp with
        | .error e => .error e
        | .ok r =>
            match parseTokens ps tp with
            | .error e => .error e
            | .ok rs => .ok (r :: rs) := rfl

/-- One token of the split-range parser fails exactly when it is numerically
bad, out of bounds, or inverted (the spec's three token-level conditions). -/
theorem parseRangeToken_isOk_false_iff (t : List Char) (tp : Nat) :
    ((parseRangeToken t tp).isOk = false) ↔
      (tokenNumericBad t || tokenOutOfBounds t tp || tokenInverted t) = true := by
  unfold parseRangeToken tokenNumericBad tokenOutOfBounds tokenInverted
  by_cases hc : t.contains '-' = true
  · rw [if_pos hc, if_pos hc, if_pos hc, if_pos hc]
    cases hs : (((splitOnChar '-' t).map jsTrim).get? 0).bind parseIntJS with
    | none => exact iff_of_true rfl rfl
    | some s =>
        cases he : (((splitOnChar '-' t).map jsTrim).get? 1).bind parseIntJS with
        | none => exact iff_of_true rfl rfl
        | some e =>
            dsimp only
            split_ifs with h1 h2
            · exact iff_of_true rfl (by simp [h1])
            · exact iff_of_true rfl (by simp [h1, h2])
            · refine iff_of_false (by simp) ?_
              intro h
              rw [Option.isNone_some, Option.isNone_some, Bool.or_self,
                Bool.false_or, Bool.or_eq_true, decide_eq_true_iff,
                decide_eq_true_iff] at h
              rcases h with h | h
              · exact h1 h
              · exact h2 h
  · rw [if_neg hc, if_neg hc, if_neg hc, if_neg hc]
    cases hp : parseIntJS t with
    | none => exact iff_of_true rfl rfl
    | some p =>
        dsimp only
        split_ifs with h1
        · exact iff_of_true rfl (by simp [h1])
        · refine iff_of_false (by simp) ?_
          intro h
          rw [Option.isNone_some, Bool.false_or, Bool.or_false,
            decide_eq_true_iff] at h
          exact h1 h

/-- The token loop fails exactly when some non-empty token fails. -/
theorem parseTokens_isOk_false_iff (tp : Nat) :
    ∀ parts : List (List Char),
      ((parseTokens parts tp).isOk = false) ↔
        ∃ t ∈ parts, t ≠ [] ∧ (parseRangeToken t tp).isOk = false := by
  intro parts
  induction parts with
  | nil => rw [parseTokens_nil]; simp
  | cons p ps ih =>
      rw [parseTokens_cons]
      by_cases hp : p = []
      · subst hp
        rw [if_pos rfl, ih]
        constructor
        · rintro ⟨t, ht, h⟩; exact ⟨t, by simp [ht], h⟩
        · rintro ⟨t, ht, hne, h⟩
          rcases List.mem_cons.1 ht with rfl | ht'
          · exact absurd rfl hne
          · exact ⟨t, ht', hne, h⟩
      · rw [if_neg hp]
        cases hr : parseRangeToken p tp with
        | error e =>
            simp only [isOk_error]
            constructor
            · intro _; exact ⟨p, by simp, hp, by rw [hr]; rfl⟩
            · intro _; trivial
        | ok r =>
            cases hq : parseTokens ps tp with
            | error e =>
                simp only [isOk_error]
                constructor
                · intro _
                  obtain ⟨t, ht, h1, h2⟩ := ih.1 (by rw [hq]; rfl)
                  exact ⟨t, by simp [ht], h1, h2⟩
                · intro _; trivial
            | ok rs =>
                simp only [isOk_ok]
                constructor
                · intro hfalse; exact absurd hfalse (by simp)
                · rintro ⟨t, ht, h1, h2⟩
                  exfalso
                  rcases List.mem_cons.1 ht with rfl | ht'
                  · rw [hr] at h2
                    exact absurd h2 (by simp)
                  · have hff := ih.2 ⟨t, ht', h1, h2⟩
                    rw [hq] at hff
                    exact absurd hff (by simp)

/-- The token loop produces exactly one range per non-empty token. -/
theorem parseTokens_ok_length (tp : Nat) :
    ∀ (parts : List (List Char)) (rs : List PageRange),
      parseTokens parts tp = .ok rs →
      rs.length = (parts.filter (· ≠ [])).length := by
  intro parts
  induction parts with
  | nil =>
      intro rs h
      rw [parseTokens_nil] at h
      cases h
      simp
  | cons p ps ih =>
      intro rs h
      rw [parseTokens_cons] at h
      by_cases hp : p = []
      · subst hp
        rw [if_pos rfl] at h
        rw [ih rs h]
        simp
      · rw [if_neg hp] at h
        cases hr : parseRangeToken p tp with
        | error e => rw [hr] at h; exact absurd h (by simp)
        | ok r =>
            rw [hr] at h
            cases hq : parseTokens ps tp with
            | error e => rw [hq] at h; exact absurd h (by simp)
            | ok rs' =>
                rw [hq] at h
                injection h with h'
                rw [← h']
                rw [List.filter_cons_of_pos (by simp [hp])]
                simp [ih rs' hq]

/-- C4, counterexample: `parse(",", 10)` fails (with "No valid page ranges
found"), yet the input is neither empty nor whitespace-only and none of the
claim's listed failure conditions holds — so the claimed "if and only if"
is false on the input `","`. -/
theorem c4_empty_tokens_counterexample :
    (validateAndParseRanges (",".data) 10).isOk = false ∧
    specParseFails (",".data) 10 = false ∧
    jsTrim (",".data) ≠ [] := by
  refine ⟨by decide, by decide, by decide⟩

/-- C4 (amended): the split-range parser fails exactly when the text is empty
or whitespace-only, or some non-empty token is numerically bad, out of
bounds, or inverted, **or the text has no non-empty token at all** (e.g.
`","`, which fails with "No valid page ranges found"); in the `Except`
embedding a failure returns no ranges, so there is no partial result. -/
theorem c4_parse_failure_characterization (text : List Char) (tp : Nat) :
    ((validateAndParseRanges text tp).isOk = false) ↔
      (specParseFails text tp = true ∨ nonEmptyTokens text = []) := by
  unfold validateAndParseRanges specParseFails
  by_cases htrim : jsTrim text = []
  · rw [if_pos htrim]
    simp [htrim]
  · rw [if_neg htrim]
    cases hq : parseTokens (tokensOf text) tp with
    | error e =>
        dsimp only
        simp only [isOk_error]
        constructor
        · intro _
          left
          obtain ⟨t, ht, h1, h2⟩ :=
            (parseTokens_isOk_false_iff tp (tokensOf text)).1 (by rw [hq]; rfl)
          rw [Bool.or_eq_true]
          right
          rw [List.any_eq_true]
          refine ⟨t, ?_, ?_⟩
          · exact List.mem_filter.2 ⟨ht, by simp [h1]⟩
          · exact (parseRangeToken_isOk_false_iff t tp).1 h2
        · intro _; trivial
    | ok ranges =>
        dsimp only
        by_cases hre : ranges = []
        · subst hre
          rw [if_pos rfl]
          simp only [isOk_error]
          constructor
          · intro _
            right
            have hlen := parseTokens_ok_length tp (tokensOf text) [] hq
            have hzero : (nonEmptyTokens text).length = 0 := by
              unfold nonEmptyTokens
              simpa using hlen.symm
            exact List.length_eq_zero.1 hzero
          · intro _; trivial
        · rw [if_neg hre]
          simp only [isOk_ok]
          constructor
          · intro h; exact absurd h (by simp)
          · rintro (hfail | hempty)
            · exfalso
              rw [Bool.or_eq_true] at hfail
              rcases hfail with h | h
              · exact htrim (by simpa using h)
              · rw [List.any_eq_true] at h
                obtain ⟨t, ht, hbad⟩ := h
                have h2 : (parseRangeToken t tp).isOk = false :=
                  (parseRangeToken_isOk_false_iff t tp).2 hbad
                have hmem := List.mem_filter.1 ht
                have hff : (parseTokens (tokensOf text) tp).isOk = false :=
                  (parseTokens_isOk_false_iff tp (tokensOf text)).2
                    ⟨t, hmem.1, by simpa using hmem.2, h2⟩
                rw [hq] at hff
                exact absurd hff (by simp)
            · exfalso
              have hlen := parseTokens_ok_length tp (tokensOf text) ranges hq
              have hzero : (nonEmptyTokens text).length = 0 := by
                rw [hempty]; rfl
              have hrl : ranges.length = 0 := by
                unfold nonEmptyTokens at hzero
                omega
              exact hre (List.length_eq_zero.1 hrl)

/-! ## Stability of the start-sort (C6) -/

/-- Filtering on a fixed `start` value commutes with one ordered insertion:
the inserted range goes in front of the equal-`start` ranges already present
(elements passed over have strictly smaller `start`). -/
theorem filter_start_orderedInsert (k : Nat) (x : PageRange) :
    ∀ s : List PageRange,
      (List.orderedInsert leStart x s).filter (fun r => decide (r.start = k))
        = if x.start = k
          then x :: s.filter (fun r => decide (r.start = k))
          else s.filter (fun r => decide (r.start = k)) := by
  intro s
  induction s with
  | nil =>
      by_cases hk : x.start = k
      · simp [List.orderedInsert, hk]
      · simp [List.orderedInsert, hk]
  | cons b l ih =>
      rw [List.orderedInsert]
      by_cases hxb : leStart x b
      · rw [if_pos hxb]
        by_cases hk : x.start = k
        · simp [List.filter_cons, hk]
        · simp [List.filter_cons, hk]
      · rw [if_neg hxb]
        rw [List.filter_cons, ih]
        by_cases hk : x.start = k
        · have hbk : ¬(b.start = k) := by
            unfold leStart at hxb
            omega
          simp [hk, hbk, List.filter_cons]
        · simp [hk, List.filter_cons]

/-- The insertion sort by `start` is stable: ranges with any fixed `start`
value keep their original relative order. -/
theorem filter_start_insertionSort (k : Nat) :
    ∀ l : List PageRange,
      (l.insertionSort leStart).filter (fun r => decide (r.start = k))
        = l.filter (fun r => decide (r.start = k)) := by
  intro l
  induction l with
  | nil => rfl
  | cons x l ih =>
      rw [List.insertionSort, filter_start_orderedInsert, List.filter_cons]
      by_cases hk : x.start = k
      · rw [if_pos hk, ih, if_pos (by simpa using hk)]
      · rw [if_neg hk, ih, if_neg (by simpa using hk)]

/-- C6: on accepted input the parser returns exactly one `PageRange` per
non-empty comma token (single pages as `start = end` ranges), the output is
the stable ascending-by-`start` sort of the per-token ranges — a permutation
of them, weakly sorted, with equal-`start` ranges in original token order —
and overlapping ranges are never merged (token count is preserved);
`"1-2, 4"` on a 5-page document gives exactly `{1..2}` and `{4}`. -/
theorem c6_parse_output_shape :
    validateAndParseRanges ("1-2, 4".data) 5 = .ok [⟨1, 2⟩, ⟨4, 4⟩] ∧
    ∀ (text : List Char) (tp : Nat) (rs : List PageRange),
      validateAndParseRanges text tp = .ok rs →
      ∃ raw, parseTokens (tokensOf text) tp = .ok raw ∧
        rs = raw.insertionSort leStart ∧
        raw.length = (nonEmptyTokens text).length ∧
        rs.Perm raw ∧
        rs.Pairwise leStart ∧
        ∀ k, rs.filter (fun r => decide (r.start = k))
          = raw.filter (fun r => decide (r.start = k)) := by
  refine ⟨by rfl, ?_⟩
  intro text tp rs h
  unfold validateAndParseRanges at h
  by_cases htrim : jsTrim text = []
  · rw [if_pos htrim] at h; exact absurd h (by simp)
  · rw [if_neg htrim] at h
    cases hq : parseTokens (tokensOf text) tp with
    | error e => rw [hq] at h; exact absurd h (by simp)
    | ok raw =>
        rw [hq] at h
        dsimp only at h
        by_cases hraw : raw = []
        · rw [if_pos hraw] at h; exact absurd h (by simp)
        · rw [if_neg hraw] at h
          injection h with h'
          subst h'
          refine ⟨raw, rfl, rfl,
            parseTokens_ok_length tp (tokensOf text) raw hq,
            List.perm_insertionSort leStart raw,
            List.sorted_insertionSort leStart raw,
            fun k => filter_start_insertionSort k raw⟩

/-- C6, witness: the output-shape theorem evaluated on `"1-2, 4"`, 5 pages. -/
theorem c6_parse_output_shape_witness :
    validateAndParseRanges ("1-2, 4".data) 5 = .ok [⟨1, 2⟩, ⟨4, 4⟩] ∧
    (∃ raw, parseTokens (tokensOf ("1-2, 4".data)) 5 = .ok raw ∧
      ([⟨1, 2⟩, ⟨4, 4⟩] : List PageRange) = raw.insertionSort leStart ∧
      raw.length = (nonEmptyTokens ("1-2, 4".data)).length ∧
      ([⟨1, 2⟩, ⟨4, 4⟩] : List PageRange).Perm raw ∧
      ([⟨1, 2⟩, ⟨4, 4⟩] : List PageRange).Pairwise leStart ∧
      ∀ k, ([⟨1, 2⟩, ⟨4, 4⟩] : List PageRange).filter (fun r => decide (r.start = k))
        = raw.filter (fun r => decide (r.start = k))) :=
  ⟨c6_parse_output_shape.1,
   c6_parse_output_shape.2 ("1-2, 4".data) 5 [⟨1, 2⟩, ⟨4, 4⟩] (by rfl)⟩

/-! ## Run compaction is the maximal-run decomposition (C8) -/

/-- The pages covered by the compaction loop are exactly the current run
followed by the remaining (strictly ascending) pages. -/
theorem compactLoop_pages :
    ∀ (rest : List Nat) (s e : Nat), s ≤ e →
      List.Pairwise (· < ·) (e :: rest) →
      (compactLoop rest s e).flatMap pairPages
        = List.range' s (e + 1 - s) ++ rest := by
  intro rest
  induction rest with
  | nil =>
      intro s e _ _
      simp [compactLoop, pairPages]
  | cons p rest' ih =>
      intro s e hse hpw
      have hep : e < p := (List.pairwise_cons.1 hpw).1 p (by simp)
      have hpw' : List.Pairwise (· < ·) (p :: rest') := (List.pairwise_cons.1 hpw).2
      rw [compactLoop]
      by_cases hp : p = e + 1
      · rw [if_pos hp, ih s p (by omega) hpw']
        subst hp
        rw [show e + 1 + 1 - s = (e + 1 - s) + 1 by omega, List.range'_1_concat,
          show s + (e + 1 - s) = e + 1 by omega]
        simp
      · rw [if_neg hp, List.flatMap_cons, ih p p le_rfl hpw',
          show p + 1 - p = 1 by omega]
        simp [pairPages]

/-- The runs the compaction loop emits are well-formed (`fst ≤ snd`),
separated by gaps of at least one missing page (maximality), and the first
run starts at the run-start the loop was entered with. -/
theorem compactLoop_runs :
    ∀ (rest : List Nat) (s e : Nat), s ≤ e →
      List.Pairwise (· < ·) (e :: rest) →
      (∀ q ∈ compactLoop rest s e, q.1 ≤ q.2) ∧
        List.Chain' (fun a b => a.2 + 1 < b.1) (compactLoop rest s e) ∧
        (compactLoop rest s e).head?.map Prod.fst = some s := by
  intro rest
  induction rest with
  | nil =>
      intro s e hse _
      refine ⟨?_, List.chain'_singleton _, rfl⟩
      intro q hq
      have : q = (s, e) := by simpa [compactLoop] using hq
      rw [this]
      exact hse
  | cons p rest' ih =>
      intro s e hse hpw
      have hep : e < p := (List.pairwise_cons.1 hpw).1 p (by simp)
      have hpw' : List.Pairwise (· < ·) (p :: rest') := (List.pairwise_cons.1 hpw).2
      rw [compactLoop]
      by_cases hp : p = e + 1
      · rw [if_pos hp]
        exact ih s p (by omega) hpw'
      · rw [if_neg hp]
        obtain ⟨a, b, c⟩ := ih p p le_rfl hpw'
        refine ⟨?_, ?_, rfl⟩
        · intro q hq
          rcases List.mem_cons.1 hq with rfl | hq'
          · exact hse
          · exact a q hq'
        · rw [List.chain'_cons']
          refine ⟨?_, b⟩
          intro y hy
          have hy1 : y.1 = p := by
            cases hh : (compactLoop rest' p p).head? with
            | none => rw [hh] at hy; exact absurd hy (by simp)
            | some z =>
                rw [hh] at hy c
                have hyz : z = y := by simpa using hy
                have hz1 : z.1 = p := by simpa using c
                rw [← hyz, hz1]
          show e + 1 < y.1
          omega
        
/-- For a strictly ascending page list, `compactRuns` covers exactly those
pages, with maximal (gap-separated) well-formed runs. -/
theorem compactRuns_spec (P : List Nat) (hP : List.Pairwise (· < ·) P) :
    (compactRuns P).flatMap pairPages = P ∧
      List.Chain' (fun a b => a.2 + 1 < b.1) (compactRuns P) ∧
      ∀ q ∈ compactRuns P, q.1 ≤ q.2 := by
  unfold compactRuns
  have hsorted : P.insertionSort (· ≤ ·) = P :=
    List.Sorted.insertionSort_eq (hP.imp le_of_lt)
  rw [hsorted]
  cases P with
  | nil =>
      exact ⟨rfl, List.chain'_nil, by intro q hq; exact absurd hq (List.not_mem_nil q)⟩
  | cons p rest =>
      obtain ⟨a, b, _⟩ := compactLoop_runs rest p p le_rfl hP
      refine ⟨?_, b, a⟩
      rw [compactLoop_pages rest p p le_rfl hP, show p + 1 - p = 1 by omega]
      simp

/-- The union of accepted ranges, listed ascending, is strictly sorted. -/
theorem unionPages_pairwise (rs : List PageRange) (tp : Nat) :
    List.Pairwise (· < ·) (unionPages rs tp) :=
  (List.pairwise_lt_range' 1 tp).filter _

/-- `pagesToRangeText` renders exactly the compacted runs. -/
theorem pagesToRangeText_eq_runs (pages : List Nat) :
    pagesToRangeText pages = joinSep ", " ((compactRuns pages).map encodeRun) := by
  unfold pagesToRangeText
  split_ifs with h
  · subst h; rfl
  · rfl

/-- C8: `format([1,2,3,5,7,8]) = "1-3, 5, 7-8"`, and for every accepted range
text the union of covered pages formats to the minimal representation: the
rendered runs cover exactly the union pages, each run is well-formed, and
consecutive runs are separated by a gap (so every run is maximal and lone
pages stay literal). -/
theorem c8_format_minimal_runs :
    pagesToRangeText [1, 2, 3, 5, 7, 8] = "1-3, 5, 7-8" ∧
    ∀ (text : List Char) (tp : Nat) (rs : List PageRange),
      validateAndParseRanges text tp = .ok rs →
      pagesToRangeText (unionPages rs tp)
          = joinSep ", " ((compactRuns (unionPages rs tp)).map encodeRun) ∧
        (compactRuns (unionPages rs tp)).flatMap pairPages = unionPages rs tp ∧
        List.Chain' (fun a b => a.2 + 1 < b.1) (compactRuns (unionPages rs tp)) ∧
        ∀ q ∈ compactRuns (unionPages rs tp), q.1 ≤ q.2 := by
  refine ⟨by decide, ?_⟩
  intro text tp rs _
  obtain ⟨a, b, c⟩ := compactRuns_spec (unionPages rs tp) (unionPages_pairwise rs tp)
  exact ⟨pagesToRangeText_eq_runs _, a, b, c⟩

/-- C8, witness: the round-trip on `"1-2, 4"` over 5 pages. -/
theorem c8_format_minimal_runs_witness :
    pagesToRangeText [1, 2, 3, 5, 7, 8] = "1-3, 5, 7-8" ∧
    (pagesToRangeText (unionPages [⟨1, 2⟩, ⟨4, 4⟩] 5)
        = joinSep ", " ((compactRuns (unionPages [⟨1, 2⟩, ⟨4, 4⟩] 5)).map encodeRun) ∧
      (compactRuns (unionPages [⟨1, 2⟩, ⟨4, 4⟩] 5)).flatMap pairPages
        = unionPages [⟨1, 2⟩, ⟨4, 4⟩] 5 ∧
      List.Chain' (fun a b => a.2 + 1 < b.1) (compactRuns (unionPages [⟨1, 2⟩, ⟨4, 4⟩] 5)) ∧
      ∀ q ∈ compactRuns (unionPages [⟨1, 2⟩, ⟨4, 4⟩] 5), q.1 ≤ q.2) :=
  ⟨c8_format_minimal_runs.1,
   c8_format_minimal_runs.2 ("1-2, 4".data) 5 [⟨1, 2⟩, ⟨4, 4⟩] (by rfl)⟩

end PDFUtil
